import Mathlib

/-!
# Verification of the site build engine (`engine/src`)

A shallow embedding, in Lean 4, of the work-item scheduler and the
per-asset-kind pipelines of the static-site build engine
(`engine/src/process.rs`, `engine/src/render_adapter.rs`,
`engine/src/frontmatter.rs`), together with theorems settling the
specification claims about them.

Conventions used throughout:
* Rust `VecDeque` values are lists whose head is the deque front.
* Machine integers are `Nat` with explicit reduction modulo `2 ^ 32`
  where overflow matters.
* Filesystem modification times are `Nat`; an unavailable metadata
  result is `none`.
* Behaviour of external crates (`url`, `surf`) is abstracted into
  function parameters; the `sha2` crate's SHA-256 is reimplemented
  concretely (following FIPS 180-4) so that digests evaluate.
-/

set_option maxRecDepth 8192

/-- Work-item identity (`RenderingInput` in `engine/src/process.rs`).
URLs and filesystem paths are modelled as strings. -/
inductive RItem where
  | index : RItem
  | keep : RItem
  | image (input : String) (output : String) : RItem
  | font (input : String) (output : String) : RItem
  | style (name : String) : RItem
  | page (path : String) : RItem
deriving DecidableEq

/-! ## SHA-256 (model of the `sha2` crate, FIPS 180-4) -/

/-- Reduce a natural number to a 32-bit word. -/
def w32 (n : Nat) : Nat := n % 4294967296

/-- Right rotation of a 32-bit word. -/
def rotr (n x : Nat) : Nat := w32 ((x >>> n) ||| (x <<< (32 - n)))

def shaCh (e f g : Nat) : Nat := w32 ((e &&& f) ^^^ ((e ^^^ 4294967295) &&& g))

def shaMaj (a b c : Nat) : Nat := (a &&& b) ^^^ (a &&& c) ^^^ (b &&& c)

def bsig0 (x : Nat) : Nat := rotr 2 x ^^^ rotr 13 x ^^^ rotr 22 x

def bsig1 (x : Nat) : Nat := rotr 6 x ^^^ rotr 11 x ^^^ rotr 25 x

def ssig0 (x : Nat) : Nat := rotr 7 x ^^^ rotr 18 x ^^^ (x >>> 3)

def ssig1 (x : Nat) : Nat := rotr 17 x ^^^ rotr 19 x ^^^ (x >>> 10)

/-- SHA-256 round constants (FIPS 180-4 section 4.2.2, in decimal). -/
def shaK : List Nat :=
  [1116352408, 1899447441, 3049323471, 3921009573, 961987163,
   1508970993, 2453635748, 2870763221, 3624381080, 310598401,
   607225278, 1426881987, 1925078388, 2162078206, 2614888103,
   3248222580, 3835390401, 4022224774, 264347078, 604807628,
   770255983, 1249150122, 1555081692, 1996064986, 2554220882,
   2821834349, 2952996808, 3210313671, 3336571891, 3584528711,
   113926993, 338241895, 666307205, 773529912, 1294757372,
   1396182291, 1695183700, 1986661051, 2177026350, 2456956037,
   2730485921, 2820302411, 3259730800, 3345764771, 3516065817,
   3600352804, 4094571909, 275423344, 430227734, 506948616,
   659060556, 883997877, 958139571, 1322822218, 1537002063,
   1747873779, 1955562222, 2024104815, 2227730452, 2361852424,
   2428436474, 2756734187, 3204031479, 3329325298]

/-- Intermediate SHA-256 hash state (eight working words). -/
structure Sha8 where
  va : Nat
  vb : Nat
  vc : Nat
  vd : Nat
  ve : Nat
  vf : Nat
  vg : Nat
  vh : Nat
deriving DecidableEq

/-- The eight initial hash values (FIPS 180-4 section 5.3.3, in decimal). -/
def shaInit : Sha8 :=
  ⟨1779033703, 3144134277, 1013904242, 2773480762,
   1359893119, 2600822924, 528734635, 1541459225⟩

/-- One SHA-256 compression round. -/
def shaRound (st : Sha8) (kt wt : Nat) : Sha8 :=
  let t1 := w32 (st.vh + bsig1 st.ve + shaCh st.ve st.vf st.vg + kt + wt)
  let t2 := w32 (bsig0 st.va + shaMaj st.va st.vb st.vc)
  ⟨w32 (t1 + t2), st.va, st.vb, st.vc, w32 (st.vd + t1), st.ve, st.vf, st.vg⟩

/-- Big-endian packing of four bytes into 32-bit words. -/
def bytesToWords : List Nat → List Nat
  | b0 :: b1 :: b2 :: b3 :: rest =>
      (b0 * 16777216 + b1 * 65536 + b2 * 256 + b3) :: bytesToWords rest
  | _ => []

/-- Message-schedule extension: 16 words become 64. -/
def shaSchedule (block : List Nat) : List Nat :=
  (List.range 48).foldl
    (fun w _ =>
      let l := w.length
      w ++ [w32 (ssig1 (w.getD (l - 2) 0) + w.getD (l - 7) 0 +
                 ssig0 (w.getD (l - 15) 0) + w.getD (l - 16) 0)])
    block

/-- Compress one 16-word block into the hash state. -/
def shaCompress (h : Sha8) (block : List Nat) : Sha8 :=
  let w := shaSchedule block
  let f := (shaK.zip w).foldl (fun st p => shaRound st p.1 p.2) h
  ⟨w32 (h.va + f.va), w32 (h.vb + f.vb), w32 (h.vc + f.vc), w32 (h.vd + f.vd),
   w32 (h.ve + f.ve), w32 (h.vf + f.vf), w32 (h.vg + f.vg), w32 (h.vh + f.vh)⟩

/-- SHA-256 padding: append `0x80`, zeros, and the 64-bit big-endian bit length. -/
def shaPad (msg : List Nat) : List Nat :=
  let len := msg.length
  let bitlen := len * 8
  let zeros := (64 + 56 - (len + 1) % 64) % 64
  msg ++ [0x80] ++ List.replicate zeros 0 ++
    (List.range 8).map (fun i => (bitlen >>> ((7 - i) * 8)) % 256)

/-- Split a byte list into 64-byte chunks (fuel-based so it reduces). -/
def chunk64 : Nat → List Nat → List (List Nat)
  | 0, _ => []
  | _, [] => []
  | fuel + 1, bs => bs.take 64 :: chunk64 fuel (bs.drop 64)

/-- Big-endian bytes of a 32-bit word. -/
def wordBytes (w : Nat) : List Nat :=
  [(w >>> 24) % 256, (w >>> 16) % 256, (w >>> 8) % 256, w % 256]

/-- SHA-256 digest of a byte sequence, as 32 bytes. -/
def sha256 (msg : List Nat) : List Nat :=
  let padded := shaPad msg
  let blocks := (chunk64 padded.length padded).map bytesToWords
  let h := blocks.foldl shaCompress shaInit
  wordBytes h.va ++ wordBytes h.vb ++ wordBytes h.vc ++ wordBytes h.vd ++
    wordBytes h.ve ++ wordBytes h.vf ++ wordBytes h.vg ++ wordBytes h.vh

/-! ## Hex formatting (Rust `format!("{:x}", digest)`) and UTF-8 bytes -/

/-- Lowercase hexadecimal digit characters. -/
def hexAlphabet : List Char := "0123456789abcdef".data

def hexChar (n : Nat) : Char := hexAlphabet.getD (n % 16) '0'

/-- Two lowercase hex digits of a byte (Rust prints each digest byte as `{:02x}`). -/
def hexByte (b : Nat) : List Char := [hexChar ((b % 256) / 16), hexChar b]

/-- Lowercase hex string of a byte sequence, the Rust
`format!("{:x}", sha2::Sha256::digest(..))`. -/
def hexDigest (bs : List Nat) : String :=
  String.mk (bs.foldr (fun b acc => hexByte b ++ acc) [])

/-- UTF-8 encoding of one character. -/
def utf8Char (c : Char) : List Nat :=
  let n := c.toNat
  if n < 0x80 then [n]
  else if n < 0x800 then [0xc0 ||| (n >>> 6), 0x80 ||| (n &&& 63)]
  else if n < 0x10000 then
    [0xe0 ||| (n >>> 12), 0x80 ||| ((n >>> 6) &&& 63), 0x80 ||| (n &&& 63)]
  else
    [0xf0 ||| (n >>> 18), 0x80 ||| ((n >>> 12) &&& 63), 0x80 ||| ((n >>> 6) &&& 63),
     0x80 ||| (n &&& 63)]

/-- UTF-8 bytes of a string (Rust `str::as_bytes`). -/
def utf8Encode (s : String) : List Nat :=
  s.data.foldr (fun c acc => utf8Char c ++ acc) []

/-- The output key of a URL: the lowercase hex SHA-256 digest of its
UTF-8 bytes (`format!("{:x}", sha2::Sha256::digest(url.as_bytes()))`). -/
def urlHash (u : String) : String := hexDigest (sha256 (utf8Encode u))

/-! ## String utilities (models of Rust `Path::with_extension`, `str::replace`) -/

/-- Substring test over character lists. -/
def containsSub (pat : List Char) : List Char → Bool
  | [] => pat.isEmpty
  | c :: rest => pat.isPrefixOf (c :: rest) || containsSub pat rest

/-- String wrapper for `containsSub`. -/
def strContains (s pat : String) : Bool := containsSub pat.data s.data

/-- Rust `Path::with_extension` on a single file-name component:
drop everything after the last `.` (a lone leading dot starts no
extension) and append `"." ++ ext`. -/
def withExtensionL (cs ext : List Char) : List Char :=
  match cs.reverse.dropWhile (fun c => c ≠ '.') with
  | [] => cs ++ '.' :: ext
  | [_] => cs ++ '.' :: ext
  | _ :: rest => rest.reverse ++ '.' :: ext

def withExtension (s ext : String) : String :=
  String.mk (withExtensionL s.data ext.data)

/-- Rust `str::replace`: replace non-overlapping occurrences of `pat`
left to right (fuel-based so it reduces; fuel is the input length). -/
def replaceFuel (pat rep : List Char) : Nat → List Char → List Char
  | 0, s => s
  | _, [] => []
  | fuel + 1, c :: rest =>
      if pat ≠ [] && pat.isPrefixOf (c :: rest) then
        rep ++ replaceFuel pat rep fuel ((c :: rest).drop pat.length)
      else
        c :: replaceFuel pat rep fuel rest

def replaceList (pat rep s : List Char) : List Char := replaceFuel pat rep s.length s

def strReplace (s pat rep : String) : String :=
  String.mk (replaceList pat.data rep.data s.data)

/-! ## Markdown transform: inline-image substitution
(`RenderAdapter::next`, `engine/src/render_adapter.rs` lines 248-263) -/

/-- The discovery-relevant shared state seen by the markdown adapter:
the pending set (`render_stack`), the finished set, and the worker's
private list of newly discovered items (`new_stack`). -/
structure AdapterSets where
  renderStack : List RItem
  finished : List RItem
  newStack : List RItem
deriving DecidableEq

/-- The `Event::Start(Tag::Image(LinkType::Inline, url, _))` branch of
`RenderAdapter::next`: if the source text parses as a URL, hash the
normalized URL, rewrite the target to `/images/{hash}.webp`, and enqueue
an `Image` item unless it is already pending or finished.  `parseUrl`
abstracts `url::Url::parse` and returns the normalized URL string. -/
def imageEventRewrite (parseUrl : String → Option String)
    (st : AdapterSets) (url : String) : AdapterSets × String :=
  match parseUrl url with
  | none => (st, url)
  | some nurl =>
    let hashname := urlHash nurl
    let newUrl := "/images/" ++ hashname ++ ".webp"
    let inp := RItem.image nurl hashname
    let st :=
      if !(st.renderStack.contains inp) && !(st.finished.contains inp) then
        { st with renderStack := inp :: st.renderStack, newStack := st.newStack ++ [inp] }
      else st
    (st, newUrl)

/-! ## Pipeline effect models (`Processor` in `engine/src/process.rs`) -/

/-- Result of a fetch-and-store pipeline (`render_image`, `render_font`):
where it wrote (if anywhere) and whether it inserted the item into the
finished set. -/
structure FetchResult where
  writesTo : Option String
  finishedInsert : Bool
deriving DecidableEq

/-- Model of `Processor::render_image` effects (fetch/decode assumed to
succeed).  The output path is
`output.join("images").join(PathBuf::from(out).with_extension("webp"))`;
with `!force` and an existing output the item is freshness-skipped but
still marked finished. -/
def renderImageM (outRoot output : String) (force outExists : Bool) : FetchResult :=
  let outPath := outRoot ++ "/images/" ++ withExtension output "webp"
  if !force && outExists then ⟨none, true⟩
  else ⟨some outPath, true⟩

/-- Model of `Processor::render_font` effects (fetch assumed to succeed). -/
def renderFontM (outRoot output : String) (force outExists : Bool) : FetchResult :=
  let outPath := outRoot ++ "/fonts/" ++ output
  if !force && outExists then ⟨none, true⟩
  else ⟨some outPath, true⟩

/-- The freshness condition of `Processor::render_style`
(`process.rs` lines 443-451): skip when not forcing, the output
metadata is available, and the output mtime is strictly newer than the
source mtime. -/
def styleFresh (force : Bool) (outM : Option Nat) (srcM : Nat) : Bool :=
  !force && outM.isSome && decide (outM.getD 0 > srcM)

/-- Model of `Processor::render_style` effects (fetches and minification
assumed to succeed).  Missing source chunk: no-op but still marked
finished.  Freshness skip: marked finished.  Otherwise write. -/
def renderStyleM (outPath : String) (srcExists force : Bool)
    (outM : Option Nat) (srcM : Nat) : FetchResult :=
  if !srcExists then ⟨none, true⟩
  else if styleFresh force outM srcM then ⟨none, true⟩
  else ⟨some outPath, true⟩

/-- The page freshness condition of `Processor::render`
(`process.rs` lines 672-680): rebuild when the source mtime is at least
the output mtime, or when either metadata is unavailable. -/
def pageNeedsUpdate (outM srcM : Option Nat) : Bool :=
  match outM, srcM with
  | some o, some i => decide (i ≥ o)
  | _, _ => true

/-- Effects of `Processor::render` on a page-like item
(`Index`/`Keep`/`Page`): whether it wrote the output file, whether it
created parent directories, whether it inserted the item into the
finished set, which items its markdown transform discovered, and its
result (`none` = `Ok`).  `disc` is the discovery outcome of running the
adapter over the source document; the adapter runs before the freshness
check, so discoveries happen in every branch except a missing source. -/
structure PageResult where
  writesTo : Option String
  dirsCreated : Bool
  finishedInsert : Bool
  discovered : List RItem
  result : Option String
deriving DecidableEq

/-- Model of `Processor::render` effects for `Index`/`Keep`/`Page` input
(`process.rs` lines 554-703).  A missing source file returns `Ok`
early, before the `finished.insert`.  With a fresh output and no
`force`, nothing is written.  Otherwise parents are created and the
minified page is written — unless the item is `Keep`, which logs
`special_keep` instead of creating the file. -/
def renderPageM (input : RItem) (outPath : String) (srcExists : Bool)
    (disc : List RItem) (force : Bool) (outM srcM : Option Nat) : PageResult :=
  if !srcExists then ⟨none, false, false, [], none⟩
  else
    let needs := pageNeedsUpdate outM srcM
    if !needs && !force then ⟨none, false, true, disc, none⟩
    else if input = RItem.keep then ⟨none, true, true, disc, none⟩
    else ⟨some outPath, true, true, disc, none⟩

/-! ## Page assembly (`Processor::render`, `process.rs` lines 651-661) -/

/-- The prelude substitution performed by `Processor::render`: the
prelude HTML has `@@@SLOT_STYLES@@@` replaced by the newline-joined
style links (wrapped in newlines) and `@@@SLOT_CONTENT@@@` replaced by
the rendered body.  No other placeholder is touched. -/
def assemblePage (prelude : String) (styles : List String) (content : String) : String :=
  strReplace
    (strReplace prelude "@@@SLOT_STYLES@@@" ("\n" ++ String.intercalate "\n" styles ++ "\n"))
    "@@@SLOT_CONTENT@@@" content

/-! ## Heading slugification (`RenderAdapter::header_slug` /
`setup_header_links`, `engine/src/render_adapter.rs` lines 62-75 and 112-124) -/

/-- The slugified form of a heading title: lowercase, spaces to
hyphens, and every character that is neither alphanumeric nor a hyphen
removed (`title.to_lowercase().replace(" ", "-").replace(|c| ..., "")`;
`char` classes are modelled over ASCII). -/
def slugify (t : String) : String :=
  String.mk
    (((t.data.map Char.toLower).map (fun c => if c = ' ' then '-' else c)).filter
      (fun c => c.isAlphanum || c = '-'))

/-- Association-list lookup, modelling the `HashMap` slug cache. -/
def slugLookup : List (String × Nat) → String → Option Nat
  | [], _ => none
  | (k, v) :: rest, s => if k = s then some v else slugLookup rest s

/-- Model of `RenderAdapter::header_slug`: on a repeat, bump the cached counter
and append it; on a first occurrence, cache `0` and return the bare
slug.  Returns the slug and the updated cache. -/
def headerSlug (cache : List (String × Nat)) (title : String) :
    String × List (String × Nat) :=
  let f := slugify title
  match slugLookup cache f with
  | some n => (f ++ toString (n + 1), (f, n + 1) :: cache)
  | none => (f, (f, 0) :: cache)

/-- Model of `RenderAdapter::setup_header_links` restricted to the anchor ids it
assigns: the slugs of the headings in document order, threading the
per-document cache. -/
def slugsOfAux (cache : List (String × Nat)) : List String → List String
  | [] => []
  | t :: ts =>
    let r := headerSlug cache t
    r.1 :: slugsOfAux r.2 ts

def slugsOf (titles : List String) : List String := slugsOfAux [] titles

/-- Closed-form specification of the anchors: the `i`-th heading gets
its slug, suffixed with the number of earlier headings sharing that
slug when that number is positive. -/
def slugSpecAux (prev : List String) : List String → List String
  | [] => []
  | t :: ts =>
    let s := slugify t
    let c := prev.countP (fun u => slugify u == s)
    (if c = 0 then s else s ++ toString c) :: slugSpecAux (prev ++ [t]) ts

def slugSpec (titles : List String) : List String := slugSpecAux [] titles

/-! ## Style-chunk font rewriting (`Processor::_style_regex_replacer`,
`engine/src/process.rs` lines 365-414) -/

/-- Result of `url::Url::parse` as far as the font rewriter consumes
it: the list of path segments, or `none` for a cannot-be-a-base URL
(`Url::path_segments` returning `None`). -/
structure UrlModel where
  pathSegments : Option (List String)

/-- A computation that can panic (an `unwrap` failing), return the
item's error result, or succeed. -/
inductive PanicOr (α : Type) where
  | panicked : PanicOr α
  | failed (e : String) : PanicOr α
  | done (a : α) : PanicOr α

/-- Split a character list at a separator character; the result is
never empty (model of Rust `str::split`). -/
def splitOnChar (sep : Char) : List Char → List (List Char)
  | [] => [[]]
  | c :: rest =>
    match splitOnChar sep rest with
    | [] => [[c]]
    | g :: gs => if c = sep then [] :: g :: gs else (c :: g) :: gs

/-- The closure inside `re2.replace_all` of `_style_regex_replacer`,
applied to one captured `url(...)` argument: hash the text, `unwrap`
the URL parse, `unwrap` the path segments, take the extension after the
last dot of the last segment, build the `Font` item and the rewritten
`url(/fonts/{hash.ext})` text, and enqueue the item unless already
pending or finished.  Each failing `unwrap` is a panic. -/
def fontReplaceOne (parseUrl : String → Option UrlModel)
    (renderStack finished : List RItem) (tok : String) :
    PanicOr (String × List RItem) :=
  let hashname := urlHash tok
  match parseUrl tok with
  | none => PanicOr.panicked
  | some u =>
    match u.pathSegments with
    | none => PanicOr.panicked
    | some segs =>
      match segs.getLast? with
      | none => PanicOr.panicked
      | some lastSeg =>
        match (splitOnChar '.' lastSeg.data).getLast? with
        | none => PanicOr.panicked
        | some extChars =>
          let outputFilename := hashname ++ "." ++ String.mk extChars
          let inp := RItem.font tok outputFilename
          let newUrl := "url(/fonts/" ++ outputFilename ++ ")"
          let newStack :=
            if !(renderStack.contains inp) && !(finished.contains inp) then
              inp :: renderStack
            else renderStack
          PanicOr.done (newUrl, newStack)

/-- The whole nested-rewrite pass over the captured `url(...)` tokens of
one fetched remote stylesheet: processed left to right; a panic aborts
everything (it unwinds through `replace_all`), and no error result is
produced by the closure itself. -/
def fontReplaceAll (parseUrl : String → Option UrlModel)
    (finished : List RItem) (renderStack : List RItem)
    (rewritten : List String) : List String → PanicOr (List String × List RItem)
  | [] => PanicOr.done (rewritten, renderStack)
  | tok :: toks =>
    match fontReplaceOne parseUrl renderStack finished tok with
    | PanicOr.panicked => PanicOr.panicked
    | PanicOr.failed e => PanicOr.failed e
    | PanicOr.done (newUrl, newStack) =>
        fontReplaceAll parseUrl finished newStack (rewritten ++ [newUrl]) toks

/-! ## The scheduler (`RenderAllFuture::poll` and
`Processor::render_toplevel`, `engine/src/process.rs` lines 197-275)

The scheduler is embedded as a deterministic step machine.  A worker
(one `Processor::render` future) is a *script*: the lists of items it
discovers at each of its poll segments — the code stretches separated
by `await` points — followed by its result.  Discoveries sit in
non-final segments because in the source every push onto `render_stack`
is followed by at least one `await` before the function returns
(the prelude read, directory creation and output write all come after
the adapter and style discovery loops).  `FuturesUnordered::poll_next`
is modelled as a left-to-right sweep that advances every pending future
by one segment until one of them completes. -/

/-- What one worker does: per-poll-segment discoveries, the final
result (`none` = `Ok`), and whether completion inserts the item into
the finished set (`Processor::render` skips the insert for a missing
source file; an `Err` returns before the insert). -/
structure Script where
  segs : List (List RItem)
  result : Option String
  marksFinished : Bool
deriving DecidableEq

/-- An in-flight future: its item, its remaining segments, and its
script outcome. -/
structure Fut where
  item : RItem
  segs : List (List RItem)
  result : Option String
  marksFinished : Bool
deriving DecidableEq

/-- Scheduler state: the pending deque (`render_stack`, head = front),
the finished set, the in-flight futures (`FuturesUnordered`), plus
three ghost logs — items dispatched (futures created), completions in
order with their results, and every item ever pushed onto the deque. -/
structure SchedState where
  stack : List RItem
  finished : List RItem
  futs : List Fut
  executed : List RItem
  completedLog : List (RItem × Option String)
  pushedLog : List RItem
deriving DecidableEq

/-- Pages are discovered with `push_back`; images, styles and fonts
with `push_front`. -/
def pushFront : RItem → Bool
  | RItem.page _ => false
  | _ => true

/-- One discovery, with the dedup guard of the source
(`if !render_stack.contains(&input) && !finished.contains(&input)`). -/
def discoverOne (st : SchedState) (i : RItem) : SchedState :=
  if st.stack.contains i || st.finished.contains i then st
  else
    { st with
      stack := if pushFront i then i :: st.stack else st.stack ++ [i],
      pushedLog := st.pushedLog ++ [i] }

def discoverAll (st : SchedState) (l : List RItem) : SchedState :=
  l.foldl discoverOne st

def mkFut (world : RItem → Script) (i : RItem) : Fut :=
  ⟨i, (world i).segs, (world i).result, (world i).marksFinished⟩

/-- The drain loop at the top of `RenderAllFuture::poll`:
`while let Some(input) = render_stack.pop_back()` creates a future for
each pending item (back first) and pushes it into the set. -/
def drain (world : RItem → Script) (st : SchedState) : SchedState :=
  let order := st.stack.reverse
  { st with
    stack := [],
    futs := st.futs ++ order.map (mkFut world),
    executed := st.executed ++ order }

/-- Model of `FuturesUnordered::poll_next`: advance each future in order by one
segment (performing its discoveries) until one completes; a completed
future is removed, marks its item finished when applicable, and its
result is yielded. -/
def sweep (st : SchedState) (acc : List Fut) : List Fut →
    SchedState × Option (RItem × Option String)
  | [] => ({ st with futs := acc }, none)
  | f :: fs =>
    match f.segs with
    | d :: ds => sweep (discoverAll st d) (acc ++ [{ f with segs := ds }]) fs
    | [] =>
      ({ st with
          finished :=
            if f.result.isNone && f.marksFinished then f.item :: st.finished
            else st.finished,
          completedLog := st.completedLog ++ [(f.item, f.result)],
          futs := acc ++ fs },
        some (f.item, f.result))

/-- Outcome of one `RenderAllFuture::poll`. -/
inductive PollRes where
  | pending : PollRes
  | done : PollRes
  | errored (e : String) : PollRes
deriving DecidableEq

/-- The `match` at the bottom of `RenderAllFuture::poll`: a yielded
`Err` resolves the future immediately, a yielded `Ok` resolves it only
when it came from the last in-flight future (`is_last_future`), and no
yield leaves it pending. -/
def pollFinish (isLast : Bool) (r : SchedState × Option (RItem × Option String)) :
    SchedState × PollRes :=
  match r.2 with
  | none => (r.1, PollRes.pending)
  | some (_, some e) => (r.1, PollRes.errored e)
  | some (_, none) =>
      if isLast then (r.1, PollRes.done) else (r.1, PollRes.pending)

/-- One `RenderAllFuture::poll`: drain the stack into the future set;
remember whether exactly one future is in flight (`is_last_future`);
poll the set; an `Err` is returned immediately (the remaining futures
stay in `futs` and are dropped with the returned future), an `Ok` ends
the run only when it came from the last future, and an empty set ends
the run (`poll_next` returning `None`). -/
def pollStep (world : RItem → Script) (st : SchedState) : SchedState × PollRes :=
  let st1 := drain world st
  if st1.futs.isEmpty then (st1, PollRes.done)
  else pollFinish (st1.futs.length == 1) (sweep st1 [] st1.futs)

/-- Result of driving the scheduler future to completion. -/
inductive RunRes where
  | ok (final : SchedState) : RunRes
  | errored (e : String) (final : SchedState) : RunRes
  | outOfFuel (st : SchedState) : RunRes
deriving DecidableEq

/-- Repeatedly poll (the executor re-polls on every wake) until the
future resolves. -/
def run (world : RItem → Script) : Nat → SchedState → RunRes
  | 0, st => RunRes.outOfFuel st
  | fuel + 1, st =>
    match pollStep world st with
    | (st2, PollRes.pending) => run world fuel st2
    | (st2, PollRes.done) => RunRes.ok st2
    | (st2, PollRes.errored e) => RunRes.errored e st2

def RunRes.isOk : RunRes → Bool
  | RunRes.ok _ => true
  | _ => false

def RunRes.errOf : RunRes → Option String
  | RunRes.errored e _ => some e
  | _ => none

def RunRes.state : RunRes → SchedState
  | RunRes.ok s => s
  | RunRes.errored _ s => s
  | RunRes.outOfFuel s => s

/-- Model of `Processor::render_toplevel`: `push_front(Index)` then
`push_front(Keep)` onto the empty deque, then drive `render_all`. -/
def initState : SchedState :=
  ⟨[RItem.keep, RItem.index], [], [], [], [], [RItem.index, RItem.keep]⟩

def renderToplevel (world : RItem → Script) (fuel : Nat) : RunRes :=
  run world fuel initState

/-! ## Invariants, specification functions and concrete test worlds -/

/-- Everything ever pushed onto the pending deque has either been
dispatched already or is still waiting in the deque. -/
def PushedInv (st : SchedState) : Prop :=
  ∀ i ∈ st.pushedLog, i ∈ st.executed ∨ i ∈ st.stack

/-- Every in-flight future belongs to an item that was dispatched. -/
def FutsDispatched (st : SchedState) : Prop :=
  ∀ f ∈ st.futs, f.item ∈ st.executed

/-- The errors among the completions, in completion order. -/
def errorsOf (st : SchedState) : List String :=
  st.completedLog.filterMap (fun p => p.2)

/-- Number of earlier headings whose slug coincides with `s`. -/
def slugCount (prev : List String) (s : String) : Nat :=
  prev.countP (fun u => slugify u == s)

/-- The slug cache of `header_slug` agrees with the occurrence counts
over the already-processed headings. -/
def CacheInv (prev : List String) (cache : List (String × Nat)) : Prop :=
  ∀ s, slugLookup cache s =
    if slugCount prev s = 0 then none else some (slugCount prev s - 1)

/-- A worker script that succeeds and marks its item finished. -/
def okScript (segs : List (List RItem)) : Script := ⟨segs, none, true⟩

/-- World with a self-referencing page: the index links to page `a`,
and page `a` contains a `hyperref` link to itself (its discovery
happens in the adapter segment, one `await` before its render
completes). -/
def selfLinkWorld : RItem → Script
  | RItem.index => okScript [[RItem.page "a"]]
  | RItem.keep => okScript []
  | RItem.page _ => okScript [[RItem.page "a"]]
  | _ => okScript []

/-- World with a clean run: the index links to page `a`, which
discovers nothing. -/
def cleanWorld : RItem → Script
  | RItem.index => okScript [[RItem.page "a"]]
  | RItem.keep => okScript []
  | RItem.page _ => okScript [[]]
  | _ => okScript []

/-- World where the keep worker fails after one segment while the index
worker still needs three more polls. -/
def failingWorld : RItem → Script
  | RItem.index => okScript [[], [], []]
  | RItem.keep => ⟨[[]], some "boom", true⟩
  | _ => okScript []

/-- A prelude template with all the slots and conditional regions the
specification names. -/
def preludeExample : String :=
  "<html><head>@@@SLOT_STYLES@@@<title>@@@SLOT_TITLE@@@</title></head><body><h1>@@@SLOT_TITLE@@@</h1><!-- @@@IF_DATE@@@ --><p>@@@SLOT_DATE@@@</p><!-- @@@ENDIF@@@ --><!-- @@@IF_TIME_TO_READ@@@ --><p>@@@SLOT_TIME_TO_READ@@@</p><!-- @@@ENDIF@@@ -->@@@SLOT_CONTENT@@@</body></html>"

/-- The assembled output for a page with title `Foo`, no date, one
style link and simple content. -/
def assembledExample : String :=
  assemblePage preludeExample ["<link/>"] "<p>hi</p>"

/-- A scheduler state whose deque already holds the index item. -/
def pendingIndexState : SchedState :=
  ⟨[RItem.index], [], [], [], [], [RItem.index]⟩

/-! ## Helper lemmas -/

theorem hexChar_mem (n : Nat) : hexChar n ∈ hexAlphabet := by
  have hlt : n % 16 < 16 := Nat.mod_lt _ (by decide)
  have h : ∀ m, m < 16 → hexAlphabet.getD m '0' ∈ hexAlphabet := by decide
  exact h _ hlt

theorem hexDigest_mem (bs : List Nat) : ∀ c ∈ (hexDigest bs).data, c ∈ hexAlphabet := by
  induction bs with
  | nil => intro c hc; cases hc
  | cons b bs ih =>
    intro c hc
    have : c ∈ hexByte b ++ (hexDigest bs).data := hc
    rcases List.mem_append.mp this with h1 | h2
    · simp only [hexByte, List.mem_cons, List.not_mem_nil, or_false] at h1
      rcases h1 with rfl | rfl <;> exact hexChar_mem _
    · exact ih c h2

theorem hexDigest_no_dot (bs : List Nat) : '.' ∉ (hexDigest bs).data := by
  intro h
  have := hexDigest_mem bs '.' h
  revert this
  decide

theorem withExtensionL_no_dot (cs ext : List Char) (h : '.' ∉ cs) :
    withExtensionL cs ext = cs ++ '.' :: ext := by
  have hd : cs.reverse.dropWhile (fun c => c ≠ '.') = [] := by
    rw [List.dropWhile_eq_nil_iff]
    intro x hx
    have hne : x ≠ '.' := fun hx2 => h (by simpa [hx2] using List.mem_reverse.mp hx)
    simpa using hne
  unfold withExtensionL
  rw [hd]

theorem withExtension_urlHash (u : String) :
    withExtension (urlHash u) "webp" = urlHash u ++ ".webp" := by
  have hnd : '.' ∉ (urlHash u).data := hexDigest_no_dot _
  unfold withExtension
  rw [withExtensionL_no_dot _ _ hnd]
  rfl

theorem discoverOne_futs (st : SchedState) (i : RItem) :
    (discoverOne st i).futs = st.futs := by
  unfold discoverOne; split <;> rfl

theorem discoverOne_executed (st : SchedState) (i : RItem) :
    (discoverOne st i).executed = st.executed := by
  unfold discoverOne; split <;> rfl

theorem discoverOne_completedLog (st : SchedState) (i : RItem) :
    (discoverOne st i).completedLog = st.completedLog := by
  unfold discoverOne; split <;> rfl

theorem discoverAll_futs (l : List RItem) : ∀ st, (discoverAll st l).futs = st.futs := by
  induction l with
  | nil => intro st; rfl
  | cons a l ih =>
    intro st
    show (discoverAll (discoverOne st a) l).futs = st.futs
    rw [ih, discoverOne_futs]

theorem discoverAll_executed (l : List RItem) :
    ∀ st, (discoverAll st l).executed = st.executed := by
  induction l with
  | nil => intro st; rfl
  | cons a l ih =>
    intro st
    show (discoverAll (discoverOne st a) l).executed = st.executed
    rw [ih, discoverOne_executed]

theorem discoverAll_completedLog (l : List RItem) :
    ∀ st, (discoverAll st l).completedLog = st.completedLog := by
  induction l with
  | nil => intro st; rfl
  | cons a l ih =>
    intro st
    show (discoverAll (discoverOne st a) l).completedLog = st.completedLog
    rw [ih, discoverOne_completedLog]

theorem pushedInv_discoverOne (st : SchedState) (i : RItem) (h : PushedInv st) :
    PushedInv (discoverOne st i) := by
  unfold discoverOne
  split
  · exact h
  · intro j hj
    rcases List.mem_append.mp hj with hj | hj
    · rcases h j hj with he | hs
      · exact Or.inl he
      · refine Or.inr ?_
        show j ∈ if pushFront i then i :: st.stack else st.stack ++ [i]
        split
        · exact List.mem_cons_of_mem _ hs
        · exact List.mem_append.mpr (Or.inl hs)
    · rcases List.mem_singleton.mp hj with rfl
      refine Or.inr ?_
      show j ∈ if pushFront j then j :: st.stack else st.stack ++ [j]
      split
      · exact List.mem_cons_self _ _
      · exact List.mem_append.mpr (Or.inr (List.mem_singleton.mpr rfl))

theorem pushedInv_discoverAll (l : List RItem) :
    ∀ st, PushedInv st → PushedInv (discoverAll st l) := by
  induction l with
  | nil => intro st h; exact h
  | cons a l ih =>
    intro st h
    exact ih (discoverOne st a) (pushedInv_discoverOne st a h)

theorem pushedInv_drain (world : RItem → Script) (st : SchedState) (h : PushedInv st) :
    PushedInv (drain world st) := by
  intro j hj
  have hj2 : j ∈ st.pushedLog := hj
  rcases h j hj2 with he | hs
  · exact Or.inl (List.mem_append.mpr (Or.inl he))
  · exact Or.inl (List.mem_append.mpr (Or.inr (List.mem_reverse.mpr hs)))

theorem pushedInv_sweep (rest : List Fut) :
    ∀ st acc, PushedInv st → PushedInv (sweep st acc rest).1 := by
  induction rest with
  | nil => intro st acc h; exact fun j hj => h j hj
  | cons f fs ih =>
    intro st acc h
    obtain ⟨it, segs, res, mfin⟩ := f
    cases segs with
    | cons d ds => exact ih (discoverAll st d) _ (pushedInv_discoverAll d st h)
    | nil => exact fun j hj => h j hj

theorem pollFinish_fst (b : Bool) (r : SchedState × Option (RItem × Option String)) :
    (pollFinish b r).1 = r.1 := by
  unfold pollFinish
  rcases r with ⟨st, y⟩
  rcases y with _ | ⟨i, e⟩
  · rfl
  · rcases e with _ | e
    · dsimp only; split <;> rfl
    · rfl

theorem pushedInv_pollStep (world : RItem → Script) (st : SchedState) (h : PushedInv st) :
    PushedInv (pollStep world st).1 := by
  unfold pollStep
  dsimp only
  split
  · exact pushedInv_drain world st h
  · rw [pollFinish_fst]
    exact pushedInv_sweep _ _ _ (pushedInv_drain world st h)

theorem sweep_executed (rest : List Fut) :
    ∀ st acc, (sweep st acc rest).1.executed = st.executed := by
  induction rest with
  | nil => intro st acc; rfl
  | cons f fs ih =>
    intro st acc
    obtain ⟨it, segs, res, mfin⟩ := f
    cases segs with
    | cons d ds =>
      show (sweep (discoverAll st d) _ fs).1.executed = st.executed
      rw [ih, discoverAll_executed]
    | nil => rfl

theorem sweep_log (rest : List Fut) :
    ∀ st acc,
      (sweep st acc rest).1.completedLog =
        st.completedLog ++
          (match (sweep st acc rest).2 with
            | none => []
            | some c => [c]) := by
  induction rest with
  | nil =>
    intro st acc
    show st.completedLog = st.completedLog ++ []
    rw [List.append_nil]
  | cons f fs ih =>
    intro st acc
    obtain ⟨it, segs, res, mfin⟩ := f
    cases segs with
    | cons d ds =>
      show (sweep (discoverAll st d) (acc ++ [⟨it, ds, res, mfin⟩]) fs).1.completedLog =
          st.completedLog ++
            (match (sweep (discoverAll st d) (acc ++ [⟨it, ds, res, mfin⟩]) fs).2 with
              | none => []
              | some c => [c])
      rw [ih, discoverAll_completedLog]
    | nil => rfl

theorem futsDispatched_sweep (rest : List Fut) :
    ∀ st acc, (∀ f ∈ acc, f.item ∈ st.executed) → (∀ f ∈ rest, f.item ∈ st.executed) →
      ∀ f ∈ (sweep st acc rest).1.futs, f.item ∈ (sweep st acc rest).1.executed := by
  induction rest with
  | nil =>
    intro st acc ha _ f hf
    exact ha f hf
  | cons g gs ih =>
    intro st acc ha hr
    obtain ⟨it, segs, res, mfin⟩ := g
    cases segs with
    | cons d ds =>
      refine ih (discoverAll st d) (acc ++ [⟨it, ds, res, mfin⟩]) ?_ ?_
      · intro f hf
        rw [discoverAll_executed]
        rcases List.mem_append.mp hf with hf | hf
        · exact ha f hf
        · rcases List.mem_singleton.mp hf with rfl
          exact hr ⟨it, d :: ds, res, mfin⟩ (List.mem_cons_self _ _)
      · intro f hf
        rw [discoverAll_executed]
        exact hr f (List.mem_cons_of_mem _ hf)
    | nil =>
      intro f hf
      rcases List.mem_append.mp hf with hf | hf
      · exact ha f hf
      · exact hr f (List.mem_cons_of_mem _ hf)

theorem futsDispatched_drain (world : RItem → Script) (st : SchedState)
    (h : FutsDispatched st) : FutsDispatched (drain world st) := by
  intro f hf
  rcases List.mem_append.mp hf with hf | hf
  · exact List.mem_append.mpr (Or.inl (h f hf))
  · rcases List.mem_map.mp hf with ⟨i, hi, rfl⟩
    exact List.mem_append.mpr (Or.inr hi)

theorem futsDispatched_pollStep (world : RItem → Script) (st : SchedState)
    (h : FutsDispatched st) : FutsDispatched (pollStep world st).1 := by
  unfold pollStep
  dsimp only
  split
  · exact futsDispatched_drain world st h
  · rw [pollFinish_fst]
    exact futsDispatched_sweep _ _ _ (by intro f hf; cases hf)
      (futsDispatched_drain world st h)

theorem pollStep_done_state (world : RItem → Script) (st : SchedState)
    (h2 : (pollStep world st).2 = PollRes.done) :
    (pollStep world st).1.stack = [] ∧ (pollStep world st).1.futs = [] := by
  unfold pollStep at h2 ⊢
  dsimp only at h2 ⊢
  cases hE : (drain world st).futs with
  | nil =>
    exact ⟨rfl, hE⟩
  | cons f fs =>
    rw [hE] at h2
    rw [if_neg (by simp)] at h2 ⊢
    obtain ⟨it, segs, res, mfin⟩ := f
    cases segs with
    | cons d ds =>
      cases fs with
      | nil => exact PollRes.noConfusion h2
      | cons f2 fs2 =>
        rw [show sweep (drain world st) [] (⟨it, d :: ds, res, mfin⟩ :: f2 :: fs2) =
            sweep (discoverAll (drain world st) d) [⟨it, ds, res, mfin⟩] (f2 :: fs2)
          from rfl] at h2 ⊢
        unfold pollFinish at h2 ⊢
        cases hm : (sweep (discoverAll (drain world st) d) [⟨it, ds, res, mfin⟩]
            (f2 :: fs2)).2 with
        | none => rw [hm] at h2; exact PollRes.noConfusion h2
        | some c =>
          rcases c with ⟨i, e2⟩
          cases e2 with
          | some e => rw [hm] at h2; exact PollRes.noConfusion h2
          | none =>
            rw [hm] at h2
            have hc : ((⟨it, d :: ds, res, mfin⟩ :: f2 :: fs2 : List Fut).length == 1)
                = false := rfl
            rw [hc, if_neg (by decide)] at h2
            exact PollRes.noConfusion h2
    | nil =>
      cases res with
      | some e =>
        cases fs with
        | nil => exact PollRes.noConfusion h2
        | cons f2 fs2 => exact PollRes.noConfusion h2
      | none =>
        cases fs with
        | nil => exact ⟨rfl, rfl⟩
        | cons f2 fs2 => exact PollRes.noConfusion h2

theorem pollStep_log (world : RItem → Script) (st : SchedState) :
    ((pollStep world st).2 = PollRes.pending ∨ (pollStep world st).2 = PollRes.done →
      errorsOf (pollStep world st).1 = errorsOf st) ∧
    (∀ e, (pollStep world st).2 = PollRes.errored e →
      errorsOf (pollStep world st).1 = errorsOf st ++ [e]) := by
  unfold pollStep
  dsimp only
  split
  · constructor
    · intro _; rfl
    · intro e he; exact PollRes.noConfusion he
  · have hlog := sweep_log (drain world st).futs (drain world st) []
    cases hm : (sweep (drain world st) [] (drain world st).futs).2 with
    | none =>
      rw [hm] at hlog
      have h1 : errorsOf (pollFinish ((drain world st).futs.length == 1)
          (sweep (drain world st) [] (drain world st).futs)).1 = errorsOf st := by
        rw [pollFinish_fst]
        unfold errorsOf
        rw [hlog, List.append_nil]
        rfl
      constructor
      · intro _; exact h1
      · intro e he
        unfold pollFinish at he
        rw [hm] at he
        exact PollRes.noConfusion he
    | some c =>
      rcases c with ⟨i, e2⟩
      cases e2 with
      | none =>
        rw [hm] at hlog
        have h1 : errorsOf (pollFinish ((drain world st).futs.length == 1)
            (sweep (drain world st) [] (drain world st).futs)).1 = errorsOf st := by
          rw [pollFinish_fst]
          unfold errorsOf
          rw [hlog]
          rw [List.filterMap_append]
          show List.filterMap (fun p => p.2) st.completedLog ++ [] = _
          rw [List.append_nil]
        constructor
        · intro _; exact h1
        · intro e he
          unfold pollFinish at he
          rw [hm] at he
          dsimp only at he
          split at he
          · exact PollRes.noConfusion he
          · exact PollRes.noConfusion he
      | some e0 =>
        rw [hm] at hlog
        constructor
        · intro hpd
          unfold pollFinish at hpd
          rw [hm] at hpd
          rcases hpd with hpd | hpd <;> exact PollRes.noConfusion hpd
        · intro e he
          unfold pollFinish at he
          rw [hm] at he
          dsimp only at he
          have : e0 = e := by
            have := PollRes.errored.inj he
            exact this
          subst this
          rw [pollFinish_fst]
          unfold errorsOf
          rw [hlog]
          rw [List.filterMap_append]
          rfl

theorem run_ok_quiescent (world : RItem → Script) :
    ∀ (fuel : Nat) (st : SchedState), PushedInv st →
      (run world fuel st).isOk = true →
      (run world fuel st).state.stack = [] ∧ (run world fuel st).state.futs = [] ∧
        ∀ i ∈ (run world fuel st).state.pushedLog,
          i ∈ (run world fuel st).state.executed := by
  intro fuel
  induction fuel with
  | zero => intro st _ hok; cases hok
  | succ n ih =>
    intro st h hok
    rcases hp : pollStep world st with ⟨st2, res⟩
    have hinv2 : PushedInv st2 := by
      have h2 := pushedInv_pollStep world st h
      rw [hp] at h2
      exact h2
    cases res with
    | pending =>
      have hrun : run world (n + 1) st = run world n st2 := by
        conv_lhs => rw [run]
        rw [hp]
      rw [hrun] at hok ⊢
      exact ih st2 hinv2 hok
    | done =>
      have hds := pollStep_done_state world st (by rw [hp])
      rw [hp] at hds
      have hrun : run world (n + 1) st = RunRes.ok st2 := by
        unfold run
        rw [hp]
      rw [hrun]
      refine ⟨hds.1, hds.2, ?_⟩
      intro i hi
      rcases hinv2 i hi with he | hs
      · exact he
      · rw [hds.1] at hs
        cases hs
    | errored e =>
      have hrun : run world (n + 1) st = RunRes.errored e st2 := by
        unfold run
        rw [hp]
      rw [hrun] at hok
      cases hok

theorem run_err (world : RItem → Script) :
    ∀ (fuel : Nat) (st : SchedState) (e : String), FutsDispatched st →
      (run world fuel st).errOf = some e →
      errorsOf (run world fuel st).state = errorsOf st ++ [e] ∧
        FutsDispatched (run world fuel st).state := by
  intro fuel
  induction fuel with
  | zero => intro st e _ herr; cases herr
  | succ n ih =>
    intro st e hfd herr
    rcases hp : pollStep world st with ⟨st2, res⟩
    have hfd2 : FutsDispatched st2 := by
      have h2 := futsDispatched_pollStep world st hfd
      rw [hp] at h2
      exact h2
    have hlog := pollStep_log world st
    rw [hp] at hlog
    cases res with
    | pending =>
      have hrun : run world (n + 1) st = run world n st2 := by
        conv_lhs => rw [run]
        rw [hp]
      rw [hrun] at herr ⊢
      have heq : errorsOf st2 = errorsOf st := hlog.1 (Or.inl rfl)
      have hih := ih st2 e hfd2 herr
      exact ⟨by rw [hih.1, heq], hih.2⟩
    | done =>
      have hrun : run world (n + 1) st = RunRes.ok st2 := by
        unfold run
        rw [hp]
      rw [hrun] at herr
      cases herr
    | errored e2 =>
      have hrun : run world (n + 1) st = RunRes.errored e2 st2 := by
        unfold run
        rw [hp]
      rw [hrun] at herr ⊢
      have he : e2 = e := Option.some.inj herr
      subst he
      exact ⟨hlog.2 e2 rfl, hfd2⟩

theorem slugCount_append (prev : List String) (t x : String) :
    slugCount (prev ++ [t]) x = slugCount prev x + (if slugify t = x then 1 else 0) := by
  unfold slugCount
  rw [List.countP_append]
  congr 1
  by_cases h : slugify t = x
  · simp [List.countP_cons, h]
  · simp [List.countP_cons, h]

theorem slugsOfAux_eq_spec (ts : List String) :
    ∀ prev cache, CacheInv prev cache → slugsOfAux cache ts = slugSpecAux prev ts := by
  induction ts with
  | nil => intro prev cache _; rfl
  | cons t ts ih =>
    intro prev cache hR
    have hs := hR (slugify t)
    show (headerSlug cache t).1 :: slugsOfAux (headerSlug cache t).2 ts =
        (if slugCount prev (slugify t) = 0 then slugify t
         else slugify t ++ toString (slugCount prev (slugify t))) ::
          slugSpecAux (prev ++ [t]) ts
    cases hc : slugCount prev (slugify t) with
    | zero =>
      rw [hc] at hs
      rw [if_pos rfl] at hs
      simp only [headerSlug, hs]
      have hinv2 : CacheInv (prev ++ [t]) ((slugify t, 0) :: cache) := by
        intro x
        show (if slugify t = x then some 0 else slugLookup cache x) = _
        rw [slugCount_append]
        by_cases hx : slugify t = x
        · rw [if_pos hx, if_pos hx]
          have h0 : slugCount prev x = 0 := by rw [← hx]; exact hc
          rw [h0]
          rfl
        · rw [if_neg hx, if_neg hx, Nat.add_zero]
          exact hR x
      rw [ih (prev ++ [t]) ((slugify t, 0) :: cache) hinv2]
      rfl
    | succ k =>
      rw [hc] at hs
      rw [if_neg (Nat.succ_ne_zero k)] at hs
      have hs2 : slugLookup cache (slugify t) = some k := hs
      simp only [headerSlug, hs2]
      rw [if_neg (Nat.succ_ne_zero k)]
      have hinv2 : CacheInv (prev ++ [t]) ((slugify t, k + 1) :: cache) := by
        intro x
        show (if slugify t = x then some (k + 1) else slugLookup cache x) = _
        rw [slugCount_append]
        by_cases hx : slugify t = x
        · rw [if_pos hx, if_pos hx]
          have h0 : slugCount prev x = k + 1 := by rw [← hx]; exact hc
          rw [h0]
          rfl
        · rw [if_neg hx, if_neg hx, Nat.add_zero]
          exact hR x
      rw [ih (prev ++ [t]) ((slugify t, k + 1) :: cache) hinv2]

theorem fontReplaceOne_panics (parseUrl : String → Option UrlModel)
    (rs fin : List RItem) (tok : String)
    (hbad : parseUrl tok = none ∨
      ∃ u, parseUrl tok = some u ∧ u.pathSegments = none) :
    fontReplaceOne parseUrl rs fin tok = PanicOr.panicked := by
  rcases hbad with hb | ⟨u, hu, hps⟩
  · simp only [fontReplaceOne, hb]
  · simp only [fontReplaceOne, hu, hps]

theorem fontReplaceOne_not_failed (parseUrl : String → Option UrlModel)
    (rs fin : List RItem) (tok e : String) :
    fontReplaceOne parseUrl rs fin tok ≠ PanicOr.failed e := by
  intro h
  cases hp : parseUrl tok with
  | none =>
    simp only [fontReplaceOne, hp] at h
    exact PanicOr.noConfusion h
  | some u =>
    cases hps : u.pathSegments with
    | none =>
      simp only [fontReplaceOne, hp, hps] at h
      exact PanicOr.noConfusion h
    | some segs =>
      cases hl : segs.getLast? with
      | none =>
        simp only [fontReplaceOne, hp, hps, hl] at h
        exact PanicOr.noConfusion h
      | some lastSeg =>
        cases he2 : (splitOnChar '.' lastSeg.data).getLast? with
        | none =>
          simp only [fontReplaceOne, hp, hps, hl, he2] at h
          exact PanicOr.noConfusion h
        | some extChars =>
          simp only [fontReplaceOne, hp, hps, hl, he2] at h
          exact PanicOr.noConfusion h

theorem fontReplaceAll_panics (parseUrl : String → Option UrlModel)
    (fin : List RItem) (toks : List String) (tok : String)
    (hmem : tok ∈ toks)
    (hbad : parseUrl tok = none ∨
      ∃ u, parseUrl tok = some u ∧ u.pathSegments = none) :
    ∀ rs rewritten, fontReplaceAll parseUrl fin rs rewritten toks = PanicOr.panicked := by
  induction toks with
  | nil => cases hmem
  | cons t ts ih =>
    intro rs rewritten
    rcases List.mem_cons.mp hmem with heq | hmem2
    · have hbad2 : parseUrl t = none ∨
          ∃ u, parseUrl t = some u ∧ u.pathSegments = none := by
        rw [← heq]
        exact hbad
      simp only [fontReplaceAll, fontReplaceOne_panics parseUrl rs fin t hbad2]
    · cases hone : fontReplaceOne parseUrl rs fin t with
      | panicked => simp only [fontReplaceAll, hone]
      | failed e => exact absurd hone (fontReplaceOne_not_failed parseUrl rs fin t e)
      | done a =>
        rcases a with ⟨newUrl, newStack⟩
        simp only [fontReplaceAll, hone]
        exact ih hmem2 newStack (rewritten ++ [newUrl])

/-! ## Claim theorems -/

/-- Sanity check of the SHA-256 model against the FIPS 180-4 test vector. -/
theorem sha256_matches_fips_vector :
    hexDigest (sha256 (utf8Encode "abc")) =
      "ba7816bf8f01cfea414140de5dae2223b00361a396177a9cb410ff61f20015ad" := by
  decide

/-- C1, counterexample: the claim "render logic executes at most once per
identity" fails on the code.  The pending set is the `render_stack`
deque, and an item is removed from it when dispatched — before its
worker finishes — so an identity rediscovered while its worker is in
flight passes the dedup guard and is enqueued and rendered again.  In
the world where page `a` links to itself, a completed `render_toplevel`
run executes the render logic of `Page "a"` twice. -/
theorem c1_self_link_page_rendered_twice :
    (renderToplevel selfLinkWorld 12).isOk = true ∧
    (renderToplevel selfLinkWorld 12).state.executed.count (RItem.page "a") = 2 := by
  decide

/-- C1, amended: discovering an identity that is currently in the
pending deque or in the finished set changes neither set and enqueues
nothing — the discovery is a strict no-op on the scheduler state.  (The
at-most-once part of the original claim holds only for identities never
rediscovered between dispatch and completion.) -/
theorem c1_discovery_of_pending_or_finished_is_noop (st : SchedState) (i : RItem)
    (h : (st.stack.contains i || st.finished.contains i) = true) :
    discoverOne st i = st := by
  unfold discoverOne
  rw [if_pos h]

/-- Witness for the amended C1 theorem at a concrete state. -/
theorem c1_discovery_noop_witness :
    discoverOne pendingIndexState RItem.index = pendingIndexState :=
  c1_discovery_of_pending_or_finished_is_noop pendingIndexState RItem.index (by decide)

/-- C2: when the scheduler future resolves with `Ok`, the run is
quiescent — the pending deque is empty, no worker future is still in
flight, and every item that was ever pushed onto the pending deque was
dispatched before the future resolved. -/
theorem c2_renderAll_ok_quiescent (world : RItem → Script) (fuel : Nat)
    (h : (renderToplevel world fuel).isOk = true) :
    (renderToplevel world fuel).state.stack = [] ∧
    (renderToplevel world fuel).state.futs = [] ∧
    ∀ i ∈ (renderToplevel world fuel).state.pushedLog,
      i ∈ (renderToplevel world fuel).state.executed :=
  run_ok_quiescent world fuel initState
    (show ∀ i ∈ ([RItem.index, RItem.keep] : List RItem),
        i ∈ ([] : List RItem) ∨ i ∈ [RItem.keep, RItem.index] by decide) h

/-- Witness for C2 on a concrete completed run. -/
theorem c2_renderAll_ok_quiescent_witness :
    (renderToplevel cleanWorld 20).isOk = true ∧
    (renderToplevel cleanWorld 20).state.stack = [] ∧
    (renderToplevel cleanWorld 20).state.futs = [] :=
  ⟨by decide, (c2_renderAll_ok_quiescent cleanWorld 20 (by decide)).1,
    (c2_renderAll_ok_quiescent cleanWorld 20 (by decide)).2.1⟩

/-- C3, counterexample: the claim "already-dispatched sibling workers
run to completion" fails on the code.  When a worker yields an error,
`poll` returns `Ready(Err)` at once; the sibling futures left inside
the `FuturesUnordered` are dropped with it.  In the failing world the
`Index` worker is dispatched, the `Keep` worker fails, the run ends
with that error, and `Index` never completes — it is still in the
future set at the end. -/
theorem c3_error_drops_dispatched_sibling :
    (renderToplevel failingWorld 10).errOf = some "boom" ∧
    RItem.index ∈ (renderToplevel failingWorld 10).state.executed ∧
    RItem.index ∉ ((renderToplevel failingWorld 10).state.completedLog.map Prod.fst) ∧
    ((renderToplevel failingWorld 10).state.futs.map (fun f => f.item)) =
      [RItem.index] := by
  decide

/-- C3, amended: the first error yielded by the future set becomes the
overall result (it is the only error in the completion log), and every
worker still in flight at that moment was dispatched but is dropped,
unfinished, with the scheduler future. -/
theorem c3_first_error_is_result_and_inflight_dropped (world : RItem → Script)
    (fuel : Nat) (e : String)
    (h : (renderToplevel world fuel).errOf = some e) :
    errorsOf (renderToplevel world fuel).state = [e] ∧
    ∀ f ∈ (renderToplevel world fuel).state.futs,
      f.item ∈ (renderToplevel world fuel).state.executed := by
  have hr := run_err world fuel initState e (fun f hf => absurd hf (List.not_mem_nil f)) h
  refine ⟨?_, hr.2⟩
  show errorsOf (run world fuel initState).state = [e]
  rw [hr.1]
  rfl

/-- Witness for the amended C3 theorem on the concrete failing run. -/
theorem c3_first_error_witness :
    (renderToplevel failingWorld 10).errOf = some "boom" ∧
    errorsOf (renderToplevel failingWorld 10).state = ["boom"] :=
  ⟨by decide,
    (c3_first_error_is_result_and_inflight_dropped failingWorld 10 "boom" (by decide)).1⟩

/-- C4: an inline image reference whose source text parses as a URL is
rewritten to `/images/{h}.webp` where `h` is the lowercase hex SHA-256
digest of the normalized URL string; a new `Image` item carrying that
key is pushed onto the pending set and recorded in the worker's
`new_stack`; and the image pipeline, whenever it writes, writes to
`{output}/images/{h}.webp`. -/
theorem c4_image_rewrite_hash_and_output (parseUrl : String → Option String)
    (st : AdapterSets) (url nurl outRoot : String)
    (hp : parseUrl url = some nurl)
    (hs : st.renderStack.contains (RItem.image nurl (urlHash nurl)) = false)
    (hf : st.finished.contains (RItem.image nurl (urlHash nurl)) = false) :
    (imageEventRewrite parseUrl st url).2 = "/images/" ++ urlHash nurl ++ ".webp" ∧
    (imageEventRewrite parseUrl st url).1.renderStack =
      RItem.image nurl (urlHash nurl) :: st.renderStack ∧
    (imageEventRewrite parseUrl st url).1.newStack =
      st.newStack ++ [RItem.image nurl (urlHash nurl)] ∧
    (∀ c ∈ (urlHash nurl).data, c ∈ hexAlphabet) ∧
    (∀ force outExists : Bool,
      (renderImageM outRoot (urlHash nurl) force outExists).writesTo = none ∨
      (renderImageM outRoot (urlHash nurl) force outExists).writesTo =
        some (outRoot ++ "/images/" ++ (urlHash nurl ++ ".webp"))) := by
  have hguard : (!(st.renderStack.contains (RItem.image nurl (urlHash nurl))) &&
      !(st.finished.contains (RItem.image nurl (urlHash nurl)))) = true := by
    rw [hs, hf]
    rfl
  refine ⟨?_, ?_, ?_, hexDigest_mem _, ?_⟩
  · simp only [imageEventRewrite, hp, hguard, if_true]
  · simp only [imageEventRewrite, hp, hguard, if_true]
  · simp only [imageEventRewrite, hp, hguard, if_true]
  · intro force outExists
    by_cases hc : (!force && outExists) = true
    · left
      simp only [renderImageM, hc, if_true]
    · right
      simp only [renderImageM]
      rw [if_neg hc, withExtension_urlHash]

/-- Witness for C4 at a concrete URL with the identity normalizer. -/
theorem c4_image_rewrite_witness :
    (imageEventRewrite (fun s => some s) ⟨[], [], []⟩ "https://example.com/cat.png").2 =
      "/images/" ++ urlHash "https://example.com/cat.png" ++ ".webp" ∧
    (renderImageM "out" (urlHash "https://example.com/cat.png") false false).writesTo =
      some ("out" ++ "/images/" ++ (urlHash "https://example.com/cat.png" ++ ".webp")) := by
  have h := c4_image_rewrite_hash_and_output (fun s => some s) ⟨[], [], []⟩
    "https://example.com/cat.png" "https://example.com/cat.png" "out" rfl rfl rfl
  refine ⟨h.1, ?_⟩
  rcases h.2.2.2.2 false false with h2 | h2
  · exact absurd h2 (by decide)
  · exact h2

/-- C5: with `force` false, the style pipeline skips exactly when the
output metadata is available and the output mtime is strictly newer
than the source mtime (and never skips when the output metadata is
unavailable); the page pipeline rebuilds exactly when the source mtime
is at least the output mtime or when either metadata is unavailable;
and the two comparisons are each other's negation — the style skip
condition equals the negation of the page rebuild condition. -/
theorem c5_freshness_rules (o s : Nat) :
    (styleFresh false (some o) s = true ↔ o > s) ∧
    (∀ s2 : Nat, styleFresh false none s2 = false) ∧
    (pageNeedsUpdate (some o) (some s) = true ↔ s ≥ o) ∧
    (∀ m : Option Nat, pageNeedsUpdate none m = true) ∧
    (∀ m : Option Nat, pageNeedsUpdate m none = true) ∧
    (styleFresh false (some o) s = !(pageNeedsUpdate (some o) (some s))) ∧
    ((renderStyleM "out" true false (some o) s).writesTo = none ↔ o > s) := by
  refine ⟨?_, ?_, ?_, ?_, ?_, ?_, ?_⟩
  · simp [styleFresh]
  · intro s2; rfl
  · simp [pageNeedsUpdate]
  · intro m; rfl
  · intro m; cases m <;> rfl
  · by_cases h : o > s
    · have h2 : ¬ s ≥ o := by omega
      simp [styleFresh, pageNeedsUpdate, h, h2]
    · have h2 : s ≥ o := by omega
      simp [styleFresh, pageNeedsUpdate, h, h2]
  · by_cases h : o > s
    · have hT : styleFresh false (some o) s = true := by simp [styleFresh, h]
      simp [renderStyleM, hT, h]
    · have hF : styleFresh false (some o) s = false := by simp [styleFresh, h]
      simp [renderStyleM, hF, h]

/-- C6, counterexample: the claim that the title slot is substituted
and the date-conditional block is stripped fails on the code.
`Processor::render` substitutes only `@@@SLOT_STYLES@@@` and
`@@@SLOT_CONTENT@@@`; assembling a page (title `Foo`, no date) from a
prelude containing a date-conditional region leaves the region's
markers and the `@@@SLOT_TITLE@@@` placeholder verbatim in the
output — the date block is not absent. -/
theorem c6_date_block_not_stripped :
    strContains assembledExample "<!-- @@@IF_DATE@@@ -->" = true ∧
    strContains assembledExample "@@@SLOT_TITLE@@@" = true := by
  decide

/-- C6, amended: page assembly substitutes exactly the styles and
content slots — both of those placeholders are gone and the inserted
style links and body are present — while the title slot and both
conditional regions (date, reading time) pass through verbatim, so a
page with a title and no date still contains the whole date-conditional
block. -/
theorem c6_only_styles_and_content_slots :
    strContains assembledExample "@@@SLOT_STYLES@@@" = false ∧
    strContains assembledExample "@@@SLOT_CONTENT@@@" = false ∧
    strContains assembledExample "<link/>" = true ∧
    strContains assembledExample "<p>hi</p>" = true ∧
    strContains assembledExample
      "<!-- @@@IF_DATE@@@ --><p>@@@SLOT_DATE@@@</p><!-- @@@ENDIF@@@ -->" = true ∧
    strContains assembledExample
      "<!-- @@@IF_TIME_TO_READ@@@ --><p>@@@SLOT_TIME_TO_READ@@@</p><!-- @@@ENDIF@@@ -->"
      = true := by
  decide

/-- C7: heading anchors are the slugified titles (lowercase, spaces to
hyphens, other non-alphanumeric non-hyphen characters removed) with
per-document disambiguation — the `i`-th heading's anchor is its slug,
suffixed with the number of earlier headings sharing that slug when
that number is positive — and a page with two headings `Intro` gets
exactly the anchors `intro` and `intro1`, in document order. -/
theorem c7_heading_slugs (ts : List String) :
    slugsOf ts = slugSpec ts ∧
    slugsOf ["Intro", "Intro"] = ["intro", "intro1"] := by
  constructor
  · exact slugsOfAux_eq_spec ts [] [] (fun s => rfl)
  · decide

/-- C8, counterexample: the claim "every item that completes is
inserted into the finished set" fails for a page-like item whose source
file does not exist: `Processor::render` returns `Ok` from the
`nonexistent_source` branch before reaching `finished.insert`, so the
item completes successfully yet is never marked finished. -/
theorem c8_missing_page_not_marked_finished :
    (renderPageM (RItem.page "missing") "out/missing.html" false [] false
        none none).result = none ∧
    (renderPageM (RItem.page "missing") "out/missing.html" false [] false
        none none).finishedInsert = false :=
  ⟨rfl, rfl⟩

/-- C8, amended: every completing worker inserts its item into the
finished set — including freshness-skipped style, image and font items
and style items with a missing source chunk — except an
`Index`/`Keep`/`Page` item whose source file is missing, which returns
`Ok` without marking itself finished. -/
theorem c8_finished_insert_rules :
    (∀ (outPath : String) (force : Bool) (outM : Option Nat) (srcM : Nat),
      (renderStyleM outPath false force outM srcM).finishedInsert = true) ∧
    (∀ (outPath : String) (force : Bool) (outM : Option Nat) (srcM : Nat),
      (renderStyleM outPath true force outM srcM).finishedInsert = true) ∧
    (∀ (outRoot output : String) (force outExists : Bool),
      (renderImageM outRoot output force outExists).finishedInsert = true) ∧
    (∀ (outRoot output : String) (force outExists : Bool),
      (renderFontM outRoot output force outExists).finishedInsert = true) ∧
    (∀ (input : RItem) (outPath : String) (disc : List RItem) (force : Bool)
        (outM srcM : Option Nat),
      (renderPageM input outPath true disc force outM srcM).finishedInsert = true) ∧
    (∀ (input : RItem) (outPath : String) (disc : List RItem) (force : Bool)
        (outM srcM : Option Nat),
      (renderPageM input outPath false disc force outM srcM).finishedInsert = false ∧
      (renderPageM input outPath false disc force outM srcM).result = none) := by
  refine ⟨?_, ?_, ?_, ?_, ?_, ?_⟩
  · intro outPath force outM srcM
    rfl
  · intro outPath force outM srcM
    show (if styleFresh force outM srcM then (⟨none, true⟩ : FetchResult)
        else ⟨some outPath, true⟩).finishedInsert = true
    split <;> rfl
  · intro outRoot output force outExists
    show (if (!force && outExists) = true then (⟨none, true⟩ : FetchResult)
        else ⟨some (outRoot ++ "/images/" ++ withExtension output "webp"),
          true⟩).finishedInsert = true
    split <;> rfl
  · intro outRoot output force outExists
    show (if (!force && outExists) = true then (⟨none, true⟩ : FetchResult)
        else ⟨some (outRoot ++ "/fonts/" ++ output), true⟩).finishedInsert = true
    split <;> rfl
  · intro input outPath disc force outM srcM
    show (if (!(pageNeedsUpdate outM srcM) && !force) = true then
          (⟨none, false, true, disc, none⟩ : PageResult)
        else if input = RItem.keep then ⟨none, true, true, disc, none⟩
        else ⟨some outPath, true, true, disc, none⟩).finishedInsert = true
    split
    · rfl
    · split <;> rfl
  · intro input outPath disc force outM srcM
    exact ⟨rfl, rfl⟩

/-- C9: the `Keep` item runs the full page pipeline — its discovery
side effects are identical to those of a `Page` item processed from the
same document — but it never creates or writes an output file, whatever
the value of `force` and whatever the freshness comparison concludes. -/
theorem c9_keep_runs_pipeline_without_writing (outPath : String) (srcExists : Bool)
    (disc : List RItem) (force : Bool) (outM srcM : Option Nat) (p : String) :
    (renderPageM RItem.keep outPath srcExists disc force outM srcM).writesTo = none ∧
    (renderPageM RItem.keep outPath srcExists disc force outM srcM).discovered =
      (renderPageM (RItem.page p) outPath srcExists disc force outM srcM).discovered := by
  cases srcExists with
  | false => exact ⟨rfl, rfl⟩
  | true =>
    constructor
    · show (if (!(pageNeedsUpdate outM srcM) && !force) = true then
            (⟨none, false, true, disc, none⟩ : PageResult)
          else if RItem.keep = RItem.keep then ⟨none, true, true, disc, none⟩
          else ⟨some outPath, true, true, disc, none⟩).writesTo = none
      split
      · rfl
      · split
        · rfl
        · next hne => exact absurd rfl hne
    · show (if (!(pageNeedsUpdate outM srcM) && !force) = true then
            (⟨none, false, true, disc, none⟩ : PageResult)
          else if RItem.keep = RItem.keep then ⟨none, true, true, disc, none⟩
          else ⟨some outPath, true, true, disc, none⟩).discovered =
          (if (!(pageNeedsUpdate outM srcM) && !force) = true then
            (⟨none, false, true, disc, none⟩ : PageResult)
          else if RItem.page p = RItem.keep then ⟨none, true, true, disc, none⟩
          else ⟨some outPath, true, true, disc, none⟩).discovered
      by_cases hn : (!(pageNeedsUpdate outM srcM) && !force) = true
      · rw [if_pos hn, if_pos hn]
      · rw [if_neg hn, if_neg hn]
        rfl

/-- C10: inside the style pipeline's nested font-reference rewriting, a
captured `url(...)` token whose argument does not parse as an absolute
URL, or whose parsed URL has no path segments, makes the replacement
closure panic (a failing `unwrap`), aborting the whole pass — and the
outcome is the panic, never the style item's error result. -/
theorem c10_bad_font_url_panics (parseUrl : String → Option UrlModel)
    (fin rs : List RItem) (rewritten : List String)
    (toks : List String) (tok : String)
    (hmem : tok ∈ toks)
    (hbad : parseUrl tok = none ∨
      ∃ u, parseUrl tok = some u ∧ u.pathSegments = none) :
    fontReplaceAll parseUrl fin rs rewritten toks = PanicOr.panicked ∧
    ∀ e, fontReplaceAll parseUrl fin rs rewritten toks ≠ PanicOr.failed e := by
  have key := fontReplaceAll_panics parseUrl fin toks tok hmem hbad rs rewritten
  refine ⟨key, ?_⟩
  intro e he
  rw [key] at he
  exact PanicOr.noConfusion he

/-- Witness for C10 with a relative (unparseable) font URL token. -/
theorem c10_bad_font_url_panics_witness :
    fontReplaceAll (fun _ => (none : Option UrlModel)) [] [] []
      ["fonts/local.woff2"] = PanicOr.panicked :=
  (c10_bad_font_url_panics (fun _ => none) [] [] [] ["fonts/local.woff2"]
    "fonts/local.woff2" (List.mem_singleton.mpr rfl) (Or.inl rfl)).1
